import Mathlib

/-!
Verification of the ts_go backend core: mdoc writer, mdoc parser,
LRU preview cache, image matcher cut keys, project-state overlay,
and the preview single-flight table.

Shallow embedding: Python functions from `backend/app` are translated into
executable Lean definitions; Python strings are sequences of code points
(`List Char`) with the needed `str` methods implemented structurally, and
file-system and HTTP effects are modelled by explicit state passing.
-/

namespace TsGo

/-- A text line, as Python sees it: a sequence of code points. -/
abbrev Line := List Char

/-- The characters removed by Python's default `str.strip()`
(the ASCII whitespace set; exotic unicode spaces are not modelled). -/
def isPySpace (c : Char) : Bool :=
  c == ' ' || c == '\t' || c == '\n' || c == '\r' || c == '\x0b' || c == '\x0c'

/-- Python `s.strip()`: remove leading and trailing whitespace. -/
def pyStrip (s : Line) : Line :=
  ((s.dropWhile isPySpace).reverse.dropWhile isPySpace).reverse

/-- Python `s.startswith(pre)`. -/
def pyStartsWith : Line → Line → Bool
  | _, [] => true
  | [], _ :: _ => false
  | c :: cs, p :: ps => p == c && pyStartsWith cs ps

/-- Python `s.split(sep)` for a one-character separator (the code only splits
on `'='` and `']'`). -/
def pySplitChar (sep : Char) : Line → List Line
  | [] => [[]]
  | c :: cs =>
    match pySplitChar sep cs with
    | [] => [[c]]
    | r :: rs => if c = sep then [] :: r :: rs else (c :: r) :: rs

/-- The value of a nonempty all-digit character sequence. -/
def digitsToNat (ds : List Char) : Nat :=
  ds.foldl (fun acc c => acc * 10 + (c.toNat - '0'.toNat)) 0

/-- Python `int(s)` on an already-stripped string: optional sign followed by
decimal digits (underscore digit-grouping is not modelled). Returns `none`
where Python raises `ValueError`. -/
def pyParseInt (s : Line) : Option Int :=
  match s with
  | '-' :: rest =>
    if rest ≠ [] ∧ rest.all Char.isDigit then some (-(digitsToNat rest : Int))
    else none
  | '+' :: rest =>
    if rest ≠ [] ∧ rest.all Char.isDigit then some ((digitsToNat rest : Int))
    else none
  | _ =>
    if s ≠ [] ∧ s.all Char.isDigit then some ((digitsToNat s : Int))
    else none

/-! ## mdoc writer (`backend/app/mdoc/writer.py`, `write_mdoc_with_selections`)

The writer's per-line loop is embedded over the list of lines of the file.
`selections.get(z, True)` is embedded as lookup in an association list with
default `true`. -/

/-- `stripped.startswith('[ZValue')` applied to a raw line (the Python code
first computes `stripped = line.strip()`). -/
def isZMarker (line : Line) : Bool :=
  pyStartsWith (pyStrip line) "[ZValue".data

/-- `int(stripped.split('=')[1].split(']')[0].strip())` with `IndexError` /
`ValueError` mapped to `none` (the writer catches both). -/
def parseMarkerZ (line : Line) : Option Int :=
  match pySplitChar '=' (pyStrip line) with
  | _ :: p :: _ => pyParseInt (pyStrip ((pySplitChar ']' p).headD []))
  | _ => none

/-- `selections.get(z, True)`: association-list lookup with default `true`. -/
def selGet (selections : List (Int × Bool)) (z : Int) : Bool :=
  match selections.lookup z with
  | some b => b
  | none => true

/-- Loop state of `write_mdoc_with_selections`:
`modified_lines`, `current_frame_z`, `in_frame_section`, `skip_frame`,
`frame_buffer`, `header_lines`. -/
structure WriterState where
  modified : List Line
  currentZ : Option Int
  inFrame : Bool
  skip : Bool
  buf : List Line
  header : List Line
  deriving Repr, DecidableEq

/-- Initial loop state of the writer. -/
def WriterState.init : WriterState :=
  ⟨[], none, false, false, [], []⟩

/-- One iteration of the writer's `for line in lines` loop
(`isZMarker line` is exactly the code's `stripped.startswith('[ZValue')`). -/
def writerStep (sel : List (Int × Bool)) (st : WriterState) (line : Line) :
    WriterState :=
  if st.currentZ = none ∧ isZMarker line = false then
    { st with header := st.header ++ [line] }
  else if isZMarker line then
    -- flush the previous frame if one is open and kept
    let st1 :=
      if st.currentZ ≠ none ∧ st.skip = false then
        { st with modified := st.modified ++ st.buf }
      else st
    match parseMarkerZ line with
    | none =>
        -- except branch: current_frame_z = None; skip_frame = True; continue
        { st1 with currentZ := none, skip := true }
    | some z =>
        { st1 with
          currentZ := some z
          skip := ! selGet sel z
          buf := [line]
          inFrame := true }
  else if st.inFrame then
    { st with buf := st.buf ++ [line] }
  else st

/-- The writer's loop over all lines. -/
def writerLoop (sel : List (Int × Bool)) (lines : List Line)
    (st : WriterState) : WriterState :=
  lines.foldl (writerStep sel) st

/-- After the loop: flush the last open frame if kept, then
`final_lines = header_lines + modified_lines`. -/
def writerFinalize (st : WriterState) : List Line :=
  let modified :=
    if st.currentZ ≠ none ∧ st.skip = false then st.modified ++ st.buf
    else st.modified
  st.header ++ modified

/-- The pure content transformation performed by `write_mdoc_with_selections`:
from the original file's lines and the selection map to the composed
replacement lines. -/
def writeMdocLines (lines : List Line) (sel : List (Int × Bool)) :
    List Line :=
  writerFinalize (writerLoop sel lines WriterState.init)

/-! ### Specification-side view of a file: header and frames -/

/-- A line that is not a frame marker. -/
def notMarker (l : Line) : Bool := ! isZMarker l

/-- The header of the file: the lines before the first frame marker. -/
def headerOf (lines : List Line) : List Line :=
  lines.takeWhile notMarker

/-- The part of the file from the first frame marker on. -/
def bodyOf (lines : List Line) : List Line :=
  lines.dropWhile notMarker

/-- Helper for `groupFrames`: `m` is the marker line of the open frame and
`acc` its body lines collected so far (reversed). -/
def groupFramesAux : Line → List Line → List Line →
    List (Line × List Line)
  | m, [], acc => [(m, acc.reverse)]
  | m, l :: ls, acc =>
    if isZMarker l then (m, acc.reverse) :: groupFramesAux l ls []
    else groupFramesAux m ls (l :: acc)

/-- Group the body into frames: each frame is its marker line together with
the following non-marker lines. -/
def groupFrames : List Line → List (Line × List Line)
  | [] => []
  | l :: ls => if isZMarker l then groupFramesAux l ls [] else groupFrames ls

/-- The identifier of a grouped frame (its marker's parsed integer; `0` is a
junk default never reached under the all-markers-parse hypothesis). -/
def frameId (g : Line × List Line) : Int :=
  (parseMarkerZ g.1).getD 0

/-- All lines of a grouped frame, marker line included. -/
def frameLines (g : Line × List Line) : List Line :=
  g.1 :: g.2

/-- The frames of a file. -/
def framesOf (lines : List Line) : List (Line × List Line) :=
  groupFrames (bodyOf lines)

/-- The identifiers of the file's frames, in file order. -/
def frameIdsOf (lines : List Line) : List Int :=
  (framesOf lines).map frameId

/-- Every frame-marker line's integer parses. -/
def allMarkersParse (lines : List Line) : Prop :=
  ∀ l ∈ lines, isZMarker l → (parseMarkerZ l).isSome

instance (lines : List Line) : Decidable (allMarkersParse lines) := by
  unfold allMarkersParse
  infer_instance

/-- The lines contributed by the kept frames of a body, in file order:
for every frame whose identifier is selected, all of its lines
(marker included) verbatim. -/
def keptLines (sel : List (Int × Bool)) (body : List Line) : List Line :=
  (((groupFrames body).filter (fun g => selGet sel (frameId g))).map
    frameLines).flatten

lemma groupFramesAux_eq (ls : List Line) : ∀ (m : Line)
    (acc : List Line),
    groupFramesAux m ls acc =
      (m, acc.reverse ++ ls.takeWhile notMarker) ::
        groupFrames (ls.dropWhile notMarker) := by
  induction ls with
  | nil => intro m acc; simp [groupFramesAux, groupFrames]
  | cons l ls ih =>
    intro m acc
    cases hml : isZMarker l with
    | true =>
      have htw : (l :: ls).takeWhile notMarker = [] := by
        simp [notMarker, hml]
      have hdw : (l :: ls).dropWhile notMarker = l :: ls := by
        simp [notMarker, hml]
      rw [htw, hdw]
      simp [groupFramesAux, groupFrames, hml]
    | false =>
      have htw : (l :: ls).takeWhile notMarker = l :: ls.takeWhile notMarker := by
        simp [notMarker, hml]
      have hdw : (l :: ls).dropWhile notMarker = ls.dropWhile notMarker := by
        simp [notMarker, hml]
      rw [htw, hdw]
      simp only [groupFramesAux]
      rw [hml]
      simp only [Bool.false_eq_true, if_false]
      rw [ih m (l :: acc)]
      simp

lemma groupFrames_cons_marker {l : Line} (ls : List Line)
    (hm : isZMarker l = true) :
    groupFrames (l :: ls) =
      (l, ls.takeWhile notMarker) :: groupFrames (ls.dropWhile notMarker) := by
  simp only [groupFrames, hm, if_true]
  rw [groupFramesAux_eq]
  simp

lemma keptLines_nil (sel : List (Int × Bool)) : keptLines sel [] = [] := by
  simp [keptLines, groupFrames]

lemma keptLines_cons_marker {l : Line} {z' : Int} (sel : List (Int × Bool))
    (ls : List Line) (hm : isZMarker l = true)
    (hp : parseMarkerZ l = some z') :
    keptLines sel (l :: ls) =
      (if selGet sel z' then l :: ls.takeWhile notMarker else []) ++
        keptLines sel (ls.dropWhile notMarker) := by
  have hfid : frameId (l, ls.takeWhile notMarker) = z' := by
    simp [frameId, hp]
  unfold keptLines
  rw [groupFrames_cons_marker ls hm, List.filter_cons, hfid]
  cases hsel : selGet sel z' <;> simp [frameLines]

lemma writerStep_text {st : WriterState} {line : Line} {z : Int}
    (sel : List (Int × Bool))
    (h1 : st.currentZ = some z) (h2 : isZMarker line = false)
    (h3 : st.inFrame = true) :
    writerStep sel st line = { st with buf := st.buf ++ [line] } := by
  unfold writerStep
  rw [h1]
  simp [h2, h3]

lemma writerStep_marker {st : WriterState} {line : Line} {z' : Int}
    (sel : List (Int × Bool))
    (hm : isZMarker line = true) (hp : parseMarkerZ line = some z') :
    writerStep sel st line =
      { (if st.currentZ ≠ none ∧ st.skip = false then
          { st with modified := st.modified ++ st.buf } else st) with
        currentZ := some z'
        skip := ! selGet sel z'
        buf := [line]
        inFrame := true } := by
  unfold writerStep
  rw [hp]
  simp [hm]

lemma writerStep_header {st : WriterState} {line : Line}
    (sel : List (Int × Bool))
    (h1 : st.currentZ = none) (h2 : isZMarker line = false) :
    writerStep sel st line = { st with header := st.header ++ [line] } := by
  unfold writerStep
  simp [h1, h2]

lemma writerLoop_cons (sel : List (Int × Bool)) (l : Line)
    (ls : List Line) (st : WriterState) :
    writerLoop sel (l :: ls) st = writerLoop sel ls (writerStep sel st l) :=
  rfl

/-- In-frame phase of the writer loop: with a frame open, the final output is
the accumulated header and kept lines, the open frame's lines when kept, and
the kept frames of the rest. -/
lemma writerLoop_inFrame (sel : List (Int × Bool)) :
    ∀ (rest : List Line) (st : WriterState) (z : Int),
    st.currentZ = some z → st.inFrame = true →
    allMarkersParse rest →
    writerFinalize (writerLoop sel rest st) =
      st.header ++ st.modified
        ++ (if st.skip then [] else st.buf ++ rest.takeWhile notMarker)
        ++ keptLines sel (rest.dropWhile notMarker) := by
  intro rest
  induction rest with
  | nil =>
    intro st z h1 _ _
    simp only [writerLoop, List.foldl_nil, writerFinalize, List.dropWhile_nil,
      List.takeWhile_nil, keptLines_nil]
    rw [h1]
    cases hsk : st.skip <;> simp [hsk]
  | cons l ls ih =>
    intro st z h1 h2 hmk
    have hmk' : allMarkersParse ls := by
      intro x hx hmx
      exact hmk x (List.mem_cons_of_mem _ hx) hmx
    cases hml : isZMarker l with
    | false =>
      have htw : (l :: ls).takeWhile notMarker = l :: ls.takeWhile notMarker := by
        simp [List.takeWhile_cons, notMarker, hml]
      have hdw : (l :: ls).dropWhile notMarker = ls.dropWhile notMarker := by
        simp [List.dropWhile_cons, notMarker, hml]
      rw [writerLoop_cons, writerStep_text sel h1 hml h2]
      rw [ih ({ st with buf := st.buf ++ [l] }) z h1 h2 hmk']
      rw [htw, hdw]
      cases hsk : st.skip <;> simp [hsk, List.append_assoc]
    | true =>
      obtain ⟨z', hz'⟩ :=
        Option.isSome_iff_exists.mp (hmk l (List.mem_cons_self l ls) hml)
      have htw : (l :: ls).takeWhile notMarker = [] := by
        simp [List.takeWhile_cons, notMarker, hml]
      have hdw : (l :: ls).dropWhile notMarker = l :: ls := by
        simp [List.dropWhile_cons, notMarker, hml]
      rw [writerLoop_cons, writerStep_marker sel hml hz']
      rw [ih _ z' rfl rfl hmk']
      rw [htw, hdw, keptLines_cons_marker sel ls hml hz']
      rw [h1]
      cases hsk : st.skip <;>
        cases hsel : selGet sel z' <;>
          simp [hsk, hsel, List.append_assoc]

/-- Header phase of the writer loop: before any frame has opened, the final
output is the header so far, the remaining header lines, and the kept frames
of the body. -/
lemma writerLoop_headerPhase (sel : List (Int × Bool)) :
    ∀ (lines : List Line) (st : WriterState),
    st.currentZ = none → st.skip = false → st.modified = [] →
    allMarkersParse lines →
    writerFinalize (writerLoop sel lines st) =
      st.header ++ lines.takeWhile notMarker
        ++ keptLines sel (lines.dropWhile notMarker) := by
  intro lines
  induction lines with
  | nil =>
    intro st h1 _ h3 _
    simp [writerLoop, writerFinalize, keptLines_nil, h1, h3]
  | cons l ls ih =>
    intro st h1 h2 h3 hmk
    have hmk' : allMarkersParse ls := by
      intro x hx hmx
      exact hmk x (List.mem_cons_of_mem _ hx) hmx
    cases hml : isZMarker l with
    | false =>
      have htw : (l :: ls).takeWhile notMarker = l :: ls.takeWhile notMarker := by
        simp [List.takeWhile_cons, notMarker, hml]
      have hdw : (l :: ls).dropWhile notMarker = ls.dropWhile notMarker := by
        simp [List.dropWhile_cons, notMarker, hml]
      rw [writerLoop_cons, writerStep_header sel h1 hml]
      rw [ih ({ st with header := st.header ++ [l] }) h1 h2 h3 hmk']
      rw [htw, hdw]
      simp [List.append_assoc]
    | true =>
      obtain ⟨z', hz'⟩ :=
        Option.isSome_iff_exists.mp (hmk l (List.mem_cons_self l ls) hml)
      have htw : (l :: ls).takeWhile notMarker = [] := by
        simp [List.takeWhile_cons, notMarker, hml]
      have hdw : (l :: ls).dropWhile notMarker = l :: ls := by
        simp [List.dropWhile_cons, notMarker, hml]
      rw [writerLoop_cons, writerStep_marker sel hml hz']
      rw [writerLoop_inFrame sel ls _ z' rfl rfl hmk']
      rw [htw, hdw, keptLines_cons_marker sel ls hml hz']
      rw [h1]
      cases hsel : selGet sel z' <;> simp [hsel, h3, List.append_assoc]

/-- The content transformation of `write_mdoc_with_selections`, in
header-plus-kept-frames form. -/
lemma writeMdocLines_spec (lines : List Line) (sel : List (Int × Bool))
    (h : allMarkersParse lines) :
    writeMdocLines lines sel = headerOf lines ++ keptLines sel (bodyOf lines) := by
  unfold writeMdocLines headerOf bodyOf
  rw [writerLoop_headerPhase sel lines WriterState.init rfl rfl rfl h]
  rfl

lemma dropWhile_head_marker (ls : List Line) :
    ls.dropWhile notMarker = [] ∨
      ∃ l rest, ls.dropWhile notMarker = l :: rest ∧ isZMarker l = true := by
  induction ls with
  | nil => left; rfl
  | cons l ls ih =>
    cases hml : isZMarker l with
    | true =>
      right
      exact ⟨l, ls, by simp [notMarker, hml], hml⟩
    | false =>
      have hdw : (l :: ls).dropWhile notMarker = ls.dropWhile notMarker := by
        simp [notMarker, hml]
      rw [hdw]
      exact ih

/-- Concatenating all frames of a marker-headed body reproduces the body. -/
lemma flatten_groupFrames : ∀ (n : Nat) (rs : List Line), rs.length ≤ n →
    (rs = [] ∨ ∃ l ls, rs = l :: ls ∧ isZMarker l = true) →
    ((groupFrames rs).map frameLines).flatten = rs := by
  intro n
  induction n with
  | zero =>
    intro rs hlen h
    have : rs = [] := List.length_eq_zero.mp (Nat.le_zero.mp hlen)
    subst this
    simp [groupFrames]
  | succ n ih =>
    intro rs hlen h
    rcases h with rfl | ⟨l, ls, rfl, hml⟩
    · simp [groupFrames]
    · rw [groupFrames_cons_marker ls hml]
      simp only [List.map_cons, List.flatten_cons, frameLines]
      rw [ih (ls.dropWhile notMarker)
        (le_trans (List.dropWhile_suffix _).length_le (Nat.le_of_succ_le_succ hlen))
        (dropWhile_head_marker ls)]
      simp [List.takeWhile_append_dropWhile]

/-- Writing with a selection that keeps every frame reproduces the file. -/
lemma writeMdocLines_id (lines : List Line) (sel : List (Int × Bool))
    (h : allMarkersParse lines)
    (hall : ∀ z ∈ frameIdsOf lines, selGet sel z = true) :
    writeMdocLines lines sel = lines := by
  rw [writeMdocLines_spec lines sel h]
  have hfil : (groupFrames (bodyOf lines)).filter
      (fun g => selGet sel (frameId g)) = groupFrames (bodyOf lines) := by
    apply List.filter_eq_self.mpr
    intro g hg
    have : frameId g ∈ frameIdsOf lines := by
      unfold frameIdsOf framesOf
      exact List.mem_map_of_mem frameId hg
    simpa using hall _ this
  unfold keptLines
  rw [hfil]
  rw [flatten_groupFrames (bodyOf lines).length (bodyOf lines) le_rfl
    (by simpa [bodyOf] using dropWhile_head_marker lines)]
  unfold headerOf bodyOf
  exact List.takeWhile_append_dropWhile notMarker lines

/-- C1: for a file whose frame markers all parse and any override map
(absent identifiers defaulting to `true`), `write_mdoc_with_selections`
composes exactly the header lines followed by, for every frame whose
identifier maps to `true`, all of that frame's original lines verbatim
(marker line included) in original order; deselected frames contribute no
lines, and no line is altered or renumbered. -/
theorem claim1_writer_output (lines : List Line) (sel : List (Int × Bool))
    (h : allMarkersParse lines) :
    writeMdocLines lines sel =
      headerOf lines ++
        (((framesOf lines).filter (fun g => selGet sel (frameId g))).map
          frameLines).flatten := by
  rw [writeMdocLines_spec lines sel h]
  rfl

/-- Witness for C1 on the spec's scenario file with frame 11 deselected. -/
theorem claim1_writer_output_witness :
    allMarkersParse ["PixelSpacing = 1".data, "[ZValue = 10]".data, "TiltAngle = -2.0".data,
      "[ZValue = 11]".data, "TiltAngle = 0.0".data, "[ZValue = 12]".data,
      "TiltAngle = 2.0".data] ∧
    writeMdocLines ["PixelSpacing = 1".data, "[ZValue = 10]".data, "TiltAngle = -2.0".data,
      "[ZValue = 11]".data, "TiltAngle = 0.0".data, "[ZValue = 12]".data,
      "TiltAngle = 2.0".data] [(11, false)] =
      headerOf ["PixelSpacing = 1".data, "[ZValue = 10]".data, "TiltAngle = -2.0".data,
        "[ZValue = 11]".data, "TiltAngle = 0.0".data, "[ZValue = 12]".data,
        "TiltAngle = 2.0".data] ++
        (((framesOf ["PixelSpacing = 1".data, "[ZValue = 10]".data, "TiltAngle = -2.0".data,
          "[ZValue = 11]".data, "TiltAngle = 0.0".data, "[ZValue = 12]".data,
          "TiltAngle = 2.0".data]).filter
            (fun g => selGet [(11, false)] (frameId g))).map
          frameLines).flatten :=
  ⟨by decide, claim1_writer_output _ _ (by decide)⟩

/-- C2: writing with a selection map that maps every present identifier to
`true` (in particular the empty map, since absent identifiers default to
`true`) reproduces the file exactly, so identifiers, frame count and frame
order are preserved, and remain unchanged across arbitrarily many repeated
save cycles. -/
theorem claim2_roundtrip (lines : List Line) (sel : List (Int × Bool))
    (h : allMarkersParse lines)
    (hall : ∀ z ∈ frameIdsOf lines, selGet sel z = true) :
    writeMdocLines lines sel = lines ∧
      frameIdsOf (writeMdocLines lines sel) = frameIdsOf lines ∧
      ∀ n : Nat, (fun ls => writeMdocLines ls sel)^[n] lines = lines := by
  have hid : writeMdocLines lines sel = lines := writeMdocLines_id lines sel h hall
  have hstep : (fun ls => writeMdocLines ls sel) lines = lines := hid
  refine ⟨hid, by rw [hid], fun n => ?_⟩
  induction n with
  | zero => rfl
  | succ k ihn => rw [Function.iterate_succ_apply, hid, ihn]

/-- Witness for C2: saving the scenario file with the empty override map
reproduces it verbatim. -/
theorem claim2_roundtrip_witness :
    allMarkersParse ["PixelSpacing = 1".data, "[ZValue = 10]".data, "TiltAngle = -2.0".data,
      "[ZValue = 11]".data, "TiltAngle = 0.0".data, "[ZValue = 12]".data,
      "TiltAngle = 2.0".data] ∧
    writeMdocLines ["PixelSpacing = 1".data, "[ZValue = 10]".data, "TiltAngle = -2.0".data,
      "[ZValue = 11]".data, "TiltAngle = 0.0".data, "[ZValue = 12]".data,
      "TiltAngle = 2.0".data] [] =
      ["PixelSpacing = 1".data, "[ZValue = 10]".data, "TiltAngle = -2.0".data,
        "[ZValue = 11]".data, "TiltAngle = 0.0".data, "[ZValue = 12]".data,
        "TiltAngle = 2.0".data] :=
  ⟨by decide,
    (claim2_roundtrip _ [] (by decide) (by intro z _; rfl)).1⟩

/-! ## Image matcher (`backend/app/matcher/cut_match.py`, `cut_key`)

`cut_key` raises `ValueError` on invalid cut counts; this is embedded as
`Except.error`. The Python slice `filename[prefix_cut : len(filename) -
suffix_cut]` is, in the guarded regime, `take (len - suffix_cut)` followed by
`drop prefix_cut`. -/

def cut_key (filename : Line) (prefix_cut suffix_cut : Int) :
    Except String Line :=
  if prefix_cut < 0 ∨ suffix_cut < 0 then
    Except.error "Cut values must be non-negative"
  else if prefix_cut + suffix_cut > (filename.length : Int) then
    Except.error "Total cut exceeds filename length"
  else
    Except.ok ((filename.take (filename.length - suffix_cut.toNat)).drop
      prefix_cut.toNat)

/-- C7: for every filename and integer cut counts `p`, `s`: if `p ≥ 0`,
`s ≥ 0` and `p + s ≤ length(name)`, `cut_key` returns the substring of `name`
with exactly `p` leading and `s` trailing characters removed; otherwise it
fails with a `ValueError` (the code's ValidationError). -/
theorem claim7_cut_key (name : Line) (p s : Int) :
    (0 ≤ p → 0 ≤ s → p + s ≤ (name.length : Int) →
      ∃ pre out suf, cut_key name p s = Except.ok out ∧
        name = pre ++ out ++ suf ∧
        (pre.length : Int) = p ∧ (suf.length : Int) = s) ∧
    ((p < 0 ∨ s < 0 ∨ p + s > (name.length : Int)) →
      ∃ msg, cut_key name p s = Except.error msg) := by
  constructor
  · intro hp hs hps
    refine ⟨name.take p.toNat,
      (name.take (name.length - s.toNat)).drop p.toNat,
      name.drop (name.length - s.toNat), ?_, ?_, ?_, ?_⟩
    · unfold cut_key
      rw [if_neg (by omega), if_neg (by omega)]
    · conv_lhs => rw [← List.take_append_drop (name.length - s.toNat) name,
        ← List.take_append_drop p.toNat (name.take (name.length - s.toNat))]
      rw [List.take_take, min_eq_left (by omega), List.append_assoc]
    · rw [List.length_take]
      omega
    · rw [List.length_drop]
      omega
  · intro hbad
    unfold cut_key
    split_ifs with h1 h2
    · exact ⟨_, rfl⟩
    · exact ⟨_, rfl⟩
    · exact absurd hbad (by omega)

/-- Witness for C7: cutting 2 leading and 1 trailing characters from a
6-character name. -/
theorem claim7_cut_key_witness :
    (0 ≤ (2 : Int) ∧ 0 ≤ (1 : Int) ∧
      (2 : Int) + 1 ≤ ("abcdef".data.length : Int)) ∧
    (∃ pre out suf, cut_key "abcdef".data 2 1 = Except.ok out ∧
      "abcdef".data = pre ++ out ++ suf ∧
      (pre.length : Int) = 2 ∧ (suf.length : Int) = 1) :=
  ⟨⟨by decide, by decide, by decide⟩,
    (claim7_cut_key "abcdef".data 2 1).1 (by decide) (by decide) (by decide)⟩

/-! ## LRU cache (`backend/app/cache/lru.py`, `LRUCache`)

`_key` feeds the formatted four-tuple string through `hashlib.md5(...)
.hexdigest()`; the hash step is modelled as an injective key derivation, so
the four-tuple itself serves as the cache key. `bytes` data is modelled as
`List Nat`; `len(data)` is `List.length`. The `OrderedDict` is a list of
entries, least-recently-used first. `current_size` is a Python `int`,
modelled as `Int`. -/

/-- Cache key: (ts_id, frame_id, bin, quality), standing for
`md5(f"{ts_id}_{frame_id}_bin{bin}_q{quality}").hexdigest()`. -/
abbrev PngKey := String × Int × Int × Int

/-- One `OrderedDict` binding: key ↦ (data, size). -/
abbrev CacheEntry := PngKey × (List Nat × Nat)

/-- `self.cache[key]` lookup. -/
def findEntry (k : PngKey) : List CacheEntry → Option (List Nat × Nat)
  | [] => none
  | (k', v) :: rest => if k' = k then some v else findEntry k rest

/-- `del self.cache[key]`. -/
def removeKey (k : PngKey) : List CacheEntry → List CacheEntry
  | [] => []
  | (k', v) :: rest => if k' = k then rest else (k', v) :: removeKey k rest

/-- `self.cache.move_to_end(key)`. -/
def moveToEnd (k : PngKey) : List CacheEntry → List CacheEntry
  | [] => []
  | (k', v) :: rest =>
    if k' = k then rest ++ [(k', v)] else (k', v) :: moveToEnd k rest

/-- In-memory LRU cache state. -/
structure LRUCache where
  max_size : Nat
  cache : List CacheEntry
  current_size : Int
  deriving Repr, DecidableEq

/-- `LRUCache(max_size_mb)`: `self.max_size = max_size_mb * 1024 * 1024`. -/
def LRUCache.empty (max_size_mb : Nat) : LRUCache :=
  ⟨max_size_mb * 1024 * 1024, [], 0⟩

/-- `get`: on a hit, move the entry to the most-recently-used end and return
its bytes. -/
def LRUCache.get (c : LRUCache) (k : PngKey) :
    Option (List Nat) × LRUCache :=
  match findEntry k c.cache with
  | some v => (some v.1, { c with cache := moveToEnd k c.cache })
  | none => (none, c)

/-- The `while self.current_size + size > self.max_size and self.cache:`
eviction loop of `put`: pop the least-recently-used entry and subtract its
recorded size. -/
def evictLoop (max_size size : Nat) :
    List CacheEntry → Int → List CacheEntry × Int
  | [], cur => ([], cur)
  | e :: rest, cur =>
    if (max_size : Int) < cur + size then
      evictLoop max_size size rest (cur - (e.2.2 : Int))
    else (e :: rest, cur)

/-- `put`: remove any existing entry for the key (adjusting the accounted
size), evict while over budget, then append the new entry as
most-recently-used. -/
def LRUCache.put (c : LRUCache) (k : PngKey) (data : List Nat) : LRUCache :=
  let size := data.length
  let c1 :=
    match findEntry k c.cache with
    | some v =>
      { c with
        cache := removeKey k c.cache
        current_size := c.current_size - (v.2 : Int) }
    | none => c
  let r := evictLoop c.max_size size c1.cache c1.current_size
  { c1 with cache := r.1 ++ [(k, (data, size))], current_size := r.2 + size }

/-- `clear`. -/
def LRUCache.clear (c : LRUCache) : LRUCache :=
  { c with cache := [], current_size := 0 }

/-- A cache operation, for stating invariants over operation sequences. -/
inductive CacheOp
  | put (k : PngKey) (data : List Nat)
  | get (k : PngKey)
  | clear

/-- Apply one operation to the cache (`get` is applied for its state
effect). -/
def applyOp (c : LRUCache) : CacheOp → LRUCache
  | .put k d => c.put k d
  | .get k => (c.get k).2
  | .clear => c.clear

/-- Apply a sequence of operations. -/
def applyOps (c : LRUCache) (ops : List CacheOp) : LRUCache :=
  ops.foldl applyOp c

/-- The sum of the recorded byte sizes of all stored entries. -/
def sumSizes (c : List CacheEntry) : Nat :=
  (c.map (fun e => e.2.2)).sum

lemma sumSizes_append (a b : List CacheEntry) :
    sumSizes (a ++ b) = sumSizes a + sumSizes b := by
  simp [sumSizes]

lemma sumSizes_moveToEnd (k : PngKey) (c : List CacheEntry) :
    sumSizes (moveToEnd k c) = sumSizes c := by
  induction c with
  | nil => rfl
  | cons e rest ih =>
    obtain ⟨k', v⟩ := e
    unfold moveToEnd
    split_ifs with h
    · rw [sumSizes_append]
      simp [sumSizes]
      omega
    · simp only [sumSizes, List.map_cons, List.sum_cons]
      have := ih
      simp only [sumSizes] at this
      omega

lemma sumSizes_removeKey {k : PngKey} {c : List CacheEntry}
    {v : List Nat × Nat} (h : findEntry k c = some v) :
    sumSizes c = sumSizes (removeKey k c) + v.2 := by
  induction c with
  | nil => simp [findEntry] at h
  | cons e rest ih =>
    obtain ⟨k', w⟩ := e
    unfold findEntry at h
    unfold removeKey
    split_ifs at h ⊢ with hk
    · cases h
      simp only [sumSizes, List.map_cons, List.sum_cons]
      omega
    · have := ih h
      simp only [sumSizes, List.map_cons, List.sum_cons] at *
      omega

lemma moveToEnd_eq {k : PngKey} {c : List CacheEntry} {v : List Nat × Nat}
    (h : findEntry k c = some v) :
    moveToEnd k c = removeKey k c ++ [(k, v)] := by
  induction c with
  | nil => simp [findEntry] at h
  | cons e rest ih =>
    obtain ⟨k', w⟩ := e
    unfold findEntry at h
    unfold moveToEnd removeKey
    split_ifs at h ⊢ with hk
    · cases h
      rw [hk]
    · rw [ih h]
      simp

/-- The eviction loop keeps the accounted counter equal to the sum of the
remaining sizes, and stops only when empty or under budget. -/
lemma evictLoop_spec (max_size size : Nat) :
    ∀ (cache : List CacheEntry) (cur : Int),
    cur = (sumSizes cache : Int) →
    (evictLoop max_size size cache cur).2 =
        (sumSizes (evictLoop max_size size cache cur).1 : Int) ∧
      ((evictLoop max_size size cache cur).1 = [] ∨
        (evictLoop max_size size cache cur).2 + size ≤ (max_size : Int)) := by
  intro cache
  induction cache with
  | nil =>
    intro cur hcur
    simp [evictLoop, hcur, sumSizes]
  | cons e rest ih =>
    intro cur hcur
    unfold evictLoop
    split_ifs with h
    · apply ih
      simp only [sumSizes, List.map_cons, List.sum_cons] at hcur
      simp only [sumSizes]
      omega
    · exact ⟨hcur, Or.inr (by omega)⟩

/-- Accounting invariant plus size bound: `current_size` equals the sum of
stored sizes and is within budget, except that the cache may consist of a
single (oversized) most-recent entry. -/
def LRUCache.Inv (c : LRUCache) : Prop :=
  c.current_size = (sumSizes c.cache : Int) ∧
    (c.current_size ≤ (c.max_size : Int) ∨
      ∃ k d n, c.cache = [(k, (d, n))] ∧ c.current_size = (n : Int))

lemma inv_put {c : LRUCache} (k : PngKey) (data : List Nat)
    (h : LRUCache.Inv c) : LRUCache.Inv (c.put k data) := by
  obtain ⟨hacc, _⟩ := h
  unfold LRUCache.put
  have hacc1 :
      (match findEntry k c.cache with
        | some v =>
          { c with
            cache := removeKey k c.cache
            current_size := c.current_size - (v.2 : Int) }
        | none => c).current_size =
      (sumSizes (match findEntry k c.cache with
        | some v =>
          { c with
            cache := removeKey k c.cache
            current_size := c.current_size - (v.2 : Int) }
        | none => c).cache : Int) := by
    cases hf : findEntry k c.cache with
    | none => simpa using hacc
    | some v =>
      have := sumSizes_removeKey hf
      simp only []
      omega
  set c1 := (match findEntry k c.cache with
    | some v =>
      { c with
        cache := removeKey k c.cache
        current_size := c.current_size - (v.2 : Int) }
    | none => c) with hc1
  obtain ⟨he1, he2⟩ := evictLoop_spec c.max_size data.length c1.cache
    c1.current_size hacc1
  constructor
  · show (evictLoop c.max_size data.length c1.cache c1.current_size).2 +
        (data.length : Int) =
      (sumSizes ((evictLoop c.max_size data.length c1.cache
        c1.current_size).1 ++ [(k, (data, data.length))]) : Int)
    rw [sumSizes_append, he1]
    have hone : sumSizes [(k, (data, data.length))] = data.length := by
      simp [sumSizes]
    rw [hone]
    push_cast
    ring
  · rcases he2 with hempty | hle
    · right
      refine ⟨k, data, data.length, ?_, ?_⟩
      · simp [hempty]
      · rw [hempty] at he1
        simp only [sumSizes, List.map_nil, List.sum_nil] at he1
        simp [he1]
    · left
      have hmax : c1.max_size = c.max_size := by
        rw [hc1]
        cases findEntry k c.cache <;> rfl
      simp only []
      omega

lemma inv_get {c : LRUCache} (k : PngKey) (h : LRUCache.Inv c) :
    LRUCache.Inv ((c.get k).2) := by
  obtain ⟨hacc, hb⟩ := h
  unfold LRUCache.get
  cases hf : findEntry k c.cache with
  | none => exact ⟨hacc, hb⟩
  | some v =>
    constructor
    · simp [sumSizes_moveToEnd, hacc]
    · rcases hb with hle | ⟨k', d, n, hone, hsz⟩
      · left
        simpa using hle
      · right
        refine ⟨k', d, n, ?_, by simpa using hsz⟩
        rw [hone]
        simp only [moveToEnd]
        split_ifs <;> simp

lemma inv_clear (c : LRUCache) : LRUCache.Inv (c.clear) := by
  constructor
  · simp [LRUCache.clear, sumSizes]
  · left
    simp [LRUCache.clear]

lemma inv_applyOps (ops : List CacheOp) :
    ∀ (c : LRUCache), LRUCache.Inv c → LRUCache.Inv (applyOps c ops) := by
  induction ops with
  | nil => intro c h; exact h
  | cons op rest ih =>
    intro c h
    cases op with
    | put k d => exact ih _ (inv_put k d h)
    | get k => exact ih _ (inv_get k h)
    | clear => exact ih _ (inv_clear c)

lemma inv_empty (mb : Nat) : LRUCache.Inv (LRUCache.empty mb) := by
  constructor
  · simp [LRUCache.empty, sumSizes]
  · left
    simp [LRUCache.empty]

/-- C5 counterexample: with a zero-byte budget (`LRUCache(max_size_mb=0)`),
a single `put` of a one-byte entry leaves `current_size = 1 > 0 = max_size`:
the claimed bound fails for a put whose entry alone exceeds the budget. -/
theorem claim5_counterexample :
    ((applyOps (LRUCache.empty 0) [CacheOp.put ("a", 0, 0, 0) [7]]).max_size : Int)
      < (applyOps (LRUCache.empty 0) [CacheOp.put ("a", 0, 0, 0) [7]]).current_size := by
  decide

/-- C5 (amended): after every operation sequence from an empty cache, the
accounted `current_size` equals the sum of the stored entries' byte sizes,
and is at most `max_size` — except that a put whose single entry's size
alone exceeds the budget leaves the cache holding exactly that entry, with
`current_size` equal to that entry's size. -/
theorem claim5_amended_bound (mb : Nat) (ops : List CacheOp) :
    (applyOps (LRUCache.empty mb) ops).current_size =
        (sumSizes (applyOps (LRUCache.empty mb) ops).cache : Int) ∧
      ((applyOps (LRUCache.empty mb) ops).current_size ≤
          ((applyOps (LRUCache.empty mb) ops).max_size : Int) ∨
        ∃ k d n, (applyOps (LRUCache.empty mb) ops).cache = [(k, (d, n))] ∧
          (applyOps (LRUCache.empty mb) ops).current_size = (n : Int)) :=
  inv_applyOps ops (LRUCache.empty mb) (inv_empty mb)

/-- Specification-side eviction, following the spec's words: evict
least-recently-used entries while the accounted size plus the new entry's
size exceeds the budget. -/
def evictSpec (max_size size : Nat) : List CacheEntry → List CacheEntry
  | [] => []
  | e :: rest =>
    if max_size < sumSizes (e :: rest) + size then evictSpec max_size size rest
    else e :: rest

/-- Specification-side `put`, following the spec's words: remove any existing
entry for the key, evict least-recently-used entries while over budget, then
insert the new entry as most-recently-used. -/
def putSpec (c : LRUCache) (k : PngKey) (data : List Nat) : LRUCache :=
  let kept := evictSpec c.max_size data.length (removeKey k c.cache)
  { c with
    cache := kept ++ [(k, (data, data.length))]
    current_size := ((sumSizes kept + data.length : Nat) : Int) }

lemma removeKey_of_not_found {k : PngKey} {c : List CacheEntry}
    (h : findEntry k c = none) : removeKey k c = c := by
  induction c with
  | nil => rfl
  | cons e rest ih =>
    obtain ⟨k', v⟩ := e
    by_cases hk : k' = k
    · exfalso
      unfold findEntry at h
      rw [if_pos hk] at h
      exact Option.noConfusion h
    · unfold findEntry at h
      rw [if_neg hk] at h
      unfold removeKey
      rw [if_neg hk, ih h]

lemma evictLoop_eq_spec (max_size size : Nat) :
    ∀ (cache : List CacheEntry) (cur : Int),
    cur = (sumSizes cache : Int) →
    evictLoop max_size size cache cur =
      (evictSpec max_size size cache,
        (sumSizes (evictSpec max_size size cache) : Int)) := by
  intro cache
  induction cache with
  | nil =>
    intro cur hcur
    simp [evictLoop, evictSpec, hcur, sumSizes]
  | cons e rest ih =>
    intro cur hcur
    have hsum : sumSizes (e :: rest) = e.2.2 + sumSizes rest := by
      simp [sumSizes]
    unfold evictLoop evictSpec
    by_cases h : max_size < sumSizes (e :: rest) + size
    · rw [if_pos (by omega), if_pos h]
      apply ih
      omega
    · rw [if_neg (by omega), if_neg h]
      exact congrArg _ hcur

/-- C6: with correct size accounting, `put` removes any existing entry for
the key, evicts strictly in least-recently-used order while the accounted
size plus the new size exceeds the byte budget, and inserts the new entry as
most-recently-used (the refinement `put = putSpec`); and `get` on a present
key returns its stored bytes and moves that entry to the most-recently-used
end, changing its future eviction order. -/
theorem claim6_lru_semantics (c : LRUCache) (k : PngKey) (data : List Nat)
    (hacc : c.current_size = (sumSizes c.cache : Int)) :
    c.put k data = putSpec c k data ∧
    ∀ d n, findEntry k c.cache = some (d, n) →
      (c.get k).1 = some d ∧
      (c.get k).2.cache = removeKey k c.cache ++ [(k, (d, n))] := by
  constructor
  · cases hf : findEntry k c.cache with
    | some v =>
      have hc1acc : c.current_size - (v.2 : Int) =
          (sumSizes (removeKey k c.cache) : Int) := by
        have := sumSizes_removeKey hf
        omega
      have hev := evictLoop_eq_spec c.max_size data.length
        (removeKey k c.cache) _ hc1acc
      unfold LRUCache.put putSpec
      rw [hf]
      simp only [hev]
      congr 1
    | none =>
      have hrk : removeKey k c.cache = c.cache := removeKey_of_not_found hf
      have hev := evictLoop_eq_spec c.max_size data.length c.cache _ hacc
      unfold LRUCache.put putSpec
      rw [hf, hrk]
      simp only [hev]
      congr 1
  · intro d n hf
    unfold LRUCache.get
    rw [hf]
    exact ⟨rfl, moveToEnd_eq hf⟩

/-- Witness for C6 on a concrete two-entry scenario. -/
theorem claim6_lru_semantics_witness :
    (LRUCache.mk 4 [(("a", 0, 0, 0), ([1, 2], 2))] 2).current_size =
      (sumSizes (LRUCache.mk 4 [(("a", 0, 0, 0), ([1, 2], 2))] 2).cache : Int) ∧
    (LRUCache.mk 4 [(("a", 0, 0, 0), ([1, 2], 2))] 2).put ("b", 1, 2, 3)
        [9, 9, 9] =
      putSpec (LRUCache.mk 4 [(("a", 0, 0, 0), ([1, 2], 2))] 2) ("b", 1, 2, 3)
        [9, 9, 9] :=
  ⟨by decide,
    (claim6_lru_semantics (LRUCache.mk 4 [(("a", 0, 0, 0), ([1, 2], 2))] 2)
      ("b", 1, 2, 3) [9, 9, 9] (by decide)).1⟩

/-! ## Writer file-system effects (`backend/app/mdoc/writer.py`)

`write_mdoc_with_selections` touches three sibling files: the mdoc file
itself, `path.with_suffix('.mdoc.bak')` and `path.with_suffix('.mdoc.tmp')`.
They are modelled as three slots of an explicit file-system state; each
Python file-system call is one atomic step, and a failure of any step inside
the `try` block is injected through a `WriteOutcome`. -/

/-- The three file slots of one mdoc path: a slot holds `some lines` when the
file exists. -/
structure MdocFs where
  orig : Option (List Line)
  backup : Option (List Line)
  tmp : Option (List Line)
  deriving Repr, DecidableEq

/-- HTTP error carrying its status code (`HTTPException`). -/
structure HttpError where
  status : Nat
  deriving Repr, DecidableEq

/-- Which step of the `try` block fails, if any. `writeTmpFail` carries the
half-written temp content left behind before the cleanup handler runs. -/
inductive WriteOutcome
  | readFail
  | writeTmpFail (junk : List Line)
  | replaceFail
  | success
  deriving Repr, DecidableEq

/-- The file-system behaviour of `write_mdoc_with_selections`:
404 if the mdoc file is missing; create the backup only if absent; then the
`try` block (read, compose, write temp, atomic replace) with the
`except` handler removing the temp file and raising 409. -/
def writeMdocFs (fs : MdocFs) (sel : List (Int × Bool))
    (outcome : WriteOutcome) : MdocFs × Except HttpError Unit :=
  match fs.orig with
  | none => (fs, Except.error ⟨404⟩)
  | some content =>
    -- shutil.copy2(mdoc_path, backup) only if not backup.exists()
    let fs1 := if fs.backup = none then { fs with backup := some content }
      else fs
    match outcome with
    | .readFail =>
      -- open()/readlines() raised: the cleanup handler still unlinks the
      -- temp file if one exists
      ({ fs1 with tmp := none }, Except.error ⟨409⟩)
    | .writeTmpFail junk =>
      -- writelines() raised after creating the temp file; cleanup unlinks it
      let fs2 := { fs1 with tmp := some junk }
      ({ fs2 with tmp := none }, Except.error ⟨409⟩)
    | .replaceFail =>
      -- temp fully composed; replace() raised; cleanup unlinks the temp
      let fs2 := { fs1 with tmp := some (writeMdocLines content sel) }
      ({ fs2 with tmp := none }, Except.error ⟨409⟩)
    | .success =>
      -- temp fully composed, then atomically renamed over the original
      let fs2 := { fs1 with tmp := some (writeMdocLines content sel) }
      ({ fs2 with orig := some (writeMdocLines content sel), tmp := none },
        Except.ok ())

/-- One successful save cycle. -/
def saveCycle (fs : MdocFs) (sel : List (Int × Bool)) : MdocFs :=
  (writeMdocFs fs sel .success).1

/-- C3: if any step of composing or writing the new content fails,
`write_mdoc_with_selections` removes the temporary sibling file, raises a
Conflict error (HTTP 409), and leaves the original file and the backup file
exactly as they were; and under every outcome the original file is either
untouched or holds the fully composed new content (atomic replacement,
never half-written). -/
theorem claim3_write_failure_atomicity (fs : MdocFs) (content : List Line)
    (sel : List (Int × Bool)) (h : fs.orig = some content) :
    (∀ outcome : WriteOutcome, outcome ≠ WriteOutcome.success →
      (writeMdocFs fs sel outcome).2 = Except.error ⟨409⟩ ∧
      (writeMdocFs fs sel outcome).1.tmp = none ∧
      (writeMdocFs fs sel outcome).1.orig = fs.orig ∧
      (writeMdocFs fs sel outcome).1.backup =
        (if fs.backup = none then some content else fs.backup)) ∧
    (∀ outcome : WriteOutcome,
      (writeMdocFs fs sel outcome).1.orig = fs.orig ∨
      (writeMdocFs fs sel outcome).1.orig =
        some (writeMdocLines content sel)) := by
  obtain ⟨o, b, t⟩ := fs
  simp only [] at h
  subst h
  constructor
  · intro outcome hne
    cases outcome with
    | readFail =>
      unfold writeMdocFs
      split_ifs with hb <;> simp_all
    | writeTmpFail junk =>
      unfold writeMdocFs
      split_ifs with hb <;> simp_all
    | replaceFail =>
      unfold writeMdocFs
      split_ifs with hb <;> simp_all
    | success => exact absurd rfl hne
  · intro outcome
    cases outcome with
    | readFail => left; unfold writeMdocFs; split_ifs <;> rfl
    | writeTmpFail junk => left; unfold writeMdocFs; split_ifs <;> rfl
    | replaceFail => left; unfold writeMdocFs; split_ifs <;> rfl
    | success => right; unfold writeMdocFs; split_ifs <;> rfl

/-- Witness for C3: a failing temp-file write against a fresh one-line file
surfaces 409, removes the temp file, and leaves original and (new) backup
in place. -/
theorem claim3_write_failure_atomicity_witness :
    (MdocFs.mk (some ["x".data]) none none).orig = some ["x".data] ∧
    ((writeMdocFs (MdocFs.mk (some ["x".data]) none none) []
        (WriteOutcome.writeTmpFail ["y".data])).2 = Except.error ⟨409⟩ ∧
      (writeMdocFs (MdocFs.mk (some ["x".data]) none none) []
        (WriteOutcome.writeTmpFail ["y".data])).1.tmp = none ∧
      (writeMdocFs (MdocFs.mk (some ["x".data]) none none) []
        (WriteOutcome.writeTmpFail ["y".data])).1.orig =
        (MdocFs.mk (some ["x".data]) none none).orig ∧
      (writeMdocFs (MdocFs.mk (some ["x".data]) none none) []
        (WriteOutcome.writeTmpFail ["y".data])).1.backup =
        (if (MdocFs.mk (some ["x".data]) none none).backup = none
          then some ["x".data]
          else (MdocFs.mk (some ["x".data]) none none).backup)) :=
  ⟨rfl,
    (claim3_write_failure_atomicity (MdocFs.mk (some ["x".data]) none none)
      ["x".data] [] rfl).1 (WriteOutcome.writeTmpFail ["y".data]) (by decide)⟩

lemma backup_preserved (sels : List (List (Int × Bool))) :
    ∀ (fs : MdocFs) (b : List Line), fs.backup = some b →
    (sels.foldl saveCycle fs).backup = some b := by
  induction sels with
  | nil => intro fs b h; exact h
  | cons sel rest ih =>
    intro fs b h
    apply ih
    obtain ⟨o, bk, t⟩ := fs
    simp only [] at h
    subst h
    cases o with
    | none => simp [saveCycle, writeMdocFs]
    | some content => simp [saveCycle, writeMdocFs]

/-- C4: the first write creates the backup with the pre-edit original's
content; any later write leaves an existing backup untouched; hence after any
number of save cycles the single backup still holds the pre-edit snapshot. -/
theorem claim4_backup_policy (fs : MdocFs) (content : List Line)
    (sel : List (Int × Bool)) (outcome : WriteOutcome) :
    (fs.backup = none → fs.orig = some content →
      (writeMdocFs fs sel outcome).1.backup = some content) ∧
    (∀ b, fs.backup = some b →
      (writeMdocFs fs sel outcome).1.backup = some b) ∧
    (fs.backup = none → fs.orig = some content →
      ∀ sels : List (List (Int × Bool)),
        (sels.foldl saveCycle (saveCycle fs sel)).backup = some content) := by
  refine ⟨?_, ?_, ?_⟩
  · intro hb ho
    obtain ⟨o, bk, t⟩ := fs
    simp only [] at hb ho
    subst hb
    subst ho
    cases outcome <;> simp [writeMdocFs]
  · intro b hb
    obtain ⟨o, bk, t⟩ := fs
    simp only [] at hb
    subst hb
    cases o with
    | none => cases outcome <;> simp [writeMdocFs]
    | some c => cases outcome <;> simp [writeMdocFs]
  · intro hb ho sels
    apply backup_preserved
    obtain ⟨o, bk, t⟩ := fs
    simp only [] at hb ho
    subst hb
    subst ho
    simp [saveCycle, writeMdocFs]

/-- Witness for C4: first save creates the backup; a second save (and any
further ones) reuses it unchanged. -/
theorem claim4_backup_policy_witness :
    (MdocFs.mk (some ["x".data]) none none).backup = none ∧
    (MdocFs.mk (some ["x".data]) none none).orig = some ["x".data] ∧
    ([[(12, false)]].foldl saveCycle
      (saveCycle (MdocFs.mk (some ["x".data]) none none)
        [(11, false)])).backup = some ["x".data] :=
  ⟨rfl, rfl,
    (claim4_backup_policy (MdocFs.mk (some ["x".data]) none none)
      ["x".data] [(11, false)] WriteOutcome.success).2.2 rfl rfl [[(12, false)]]⟩

/-! ## mdoc parser (`backend/app/mdoc/parser.py`, `parse_mdoc_file`)

The parser is embedded over the stripped lines of the file. Two
collaborators are abstracted as parameters: `floatOk` stands for Python
`float(value)` succeeding on a `TiltAngle` value (the numeric value itself
and the derived `angleRange` are outside the model: no claim touches them,
and a parse failure aborts with 500 exactly as `float` raising does), and
`matchFn` stands for `matcher.match`. `Path(p).name` / `Path(p).stem` are
modelled for separator-structured relative paths as in CPython's pathlib. -/

/-- Python `s.split(sep, 1)`: the part before the first separator and,
when the separator occurs, the remainder after it. -/
def pySplitOnce (sep : Char) : Line → Line × Option Line
  | [] => ([], none)
  | c :: cs =>
    if c = sep then ([], some cs)
    else
      let r := pySplitOnce sep cs
      (c :: r.1, r.2)

/-- `PurePath(p).name`: the last nonempty `/`-separated component. -/
def pyPathName (p : Line) : Line :=
  ((pySplitChar '/' p).filter (fun comp => comp ≠ [])).getLastD []

/-- `PurePath(name).stem`: the name without its last suffix; a dot at the
very start or very end does not begin a suffix (CPython's rule
`0 < name.rfind('.') < len(name) - 1`). -/
def pyStem (name : Line) : Line :=
  let r := pySplitOnce '.' name.reverse
  match r.2 with
  | none => name
  | some restRev =>
    if restRev ≠ [] ∧ r.1 ≠ [] then restRev.reverse else name

/-- A parsed frame (`Frame` in `models/types.py`): `angle` holds the raw
accepted `TiltAngle` text (its float value is not modelled). -/
structure PFrame where
  zIndex : Int
  angle : Line
  mrcPath : Line
  selected : Bool
  deriving Repr, DecidableEq

/-- Loop state of `parse_mdoc_file`: `frames`, `current_frame`, `z_index`
and `image_file`. -/
structure ParserState where
  frames : List PFrame
  current : Option PFrame
  z_index : Int
  image_file : Option Line
  deriving Repr, DecidableEq

/-- One iteration of the parser's `for line in lines` loop. -/
def parserStep (floatOk : Line → Bool) (matchFn : Line → Option Line)
    (st : ParserState) (raw : Line) : Except HttpError ParserState :=
  let line := pyStrip raw
  if line = [] then .ok st
  else if pyStartsWith line "[TiltSeries]".data then .ok st
  else if pyStartsWith line "[ZValue =".data then
    -- close the open frame, parse the identifier with incrementing fallback
    let closed := match st.current with
      | some f => st.frames ++ [f]
      | none => st.frames
    let z_value := match parseMarkerZ line with
      | some z => z
      | none => st.z_index
    .ok { frames := closed
          current := some ⟨z_value, "0.0".data, [], true⟩
          z_index := z_value + 1
          image_file := st.image_file }
  else
    match (pySplitOnce '=' line).2 with
    | none => .ok st
    | some vraw =>
      let key := pyStrip (pySplitOnce '=' line).1
      let value := pyStrip vraw
      match st.current with
      | none =>
        if key = "ImageFile".data then .ok { st with image_file := some value }
        else .ok st
      | some f =>
        if key = "TiltAngle".data then
          if floatOk value then
            .ok { st with current := some { f with angle := value } }
          else .error ⟨500⟩
        else if key = "SubFramePath".data then
          let normalized := value.map (fun c => if c = '\\' then '/' else c)
          let filename := pyPathName normalized
          let filename_no_ext := pyStem filename
          let mrc := match matchFn filename_no_ext with
            | some p => p
            | none => match matchFn filename with
              | some p => p
              | none => filename
          .ok { st with current := some { f with mrcPath := mrc } }
        else .ok st

/-- The parser's loop, aborting on the first error. -/
def parserLoop (floatOk : Line → Bool) (matchFn : Line → Option Line) :
    List Line → ParserState → Except HttpError ParserState
  | [], st => .ok st
  | l :: ls, st =>
    match parserStep floatOk matchFn st l with
    | .ok st2 => parserLoop floatOk matchFn ls st2
    | .error e => .error e

/-- The parsed series: its frames and the header `ImageFile` value
(`id`/`mdocPath` are the file's path, and `angleRange` is outside the
model). -/
structure PTiltSeries where
  frames : List PFrame
  image_file : Option Line
  deriving Repr, DecidableEq

/-- `parse_mdoc_file` on the file's lines: run the loop, close the last open
frame, fail with 400 when no frames resulted. -/
def parse_mdoc (floatOk : Line → Bool) (matchFn : Line → Option Line)
    (lines : List Line) : Except HttpError PTiltSeries :=
  match parserLoop floatOk matchFn lines ⟨[], none, 0, none⟩ with
  | .error e => .error e
  | .ok st =>
    let frames := match st.current with
      | some f => st.frames ++ [f]
      | none => st.frames
    if frames = [] then .error ⟨400⟩
    else .ok ⟨frames, st.image_file⟩

/-- The parse results of the file's frame-marker lines, in order. -/
def parserMarkers (lines : List Line) : List (Option Int) :=
  (lines.map pyStrip).filterMap (fun line =>
    if pyStartsWith line "[ZValue =".data then some (parseMarkerZ line)
    else none)

/-- The identifier assignment described by the claim: a parsed marker `N`
yields `N` and re-seeds the counter to `N + 1`; an unparsable marker yields
the counter value and increments it; the counter starts at `0`. -/
def claimedIds : List (Option Int) → Int → List Int
  | [], _ => []
  | some n :: ms, _ => n :: claimedIds ms (n + 1)
  | none :: ms, k => k :: claimedIds ms (k + 1)

/-- The identifiers accumulated in a parser state, the open frame
included. -/
def stIds (st : ParserState) : List Int :=
  (st.frames ++ st.current.toList).map (fun f => f.zIndex)

lemma pyStartsWith_iff : ∀ (s pre : Line),
    pyStartsWith s pre = true ↔ ∃ t, s = pre ++ t := by
  intro s pre
  induction pre generalizing s with
  | nil =>
    cases s <;> simp [pyStartsWith]
  | cons p ps ih =>
    cases s with
    | nil =>
      simp [pyStartsWith]
    | cons c cs =>
      simp only [pyStartsWith, Bool.and_eq_true, beq_iff_eq, ih,
        List.cons_append, List.cons.injEq]
      constructor
      · rintro ⟨rfl, t, rfl⟩
        exact ⟨t, rfl, rfl⟩
      · rintro ⟨t, rfl, rfl⟩
        exact ⟨rfl, t, rfl⟩

lemma zvalue_not_tiltseries (t : Line) :
    pyStartsWith ("[ZValue =".data ++ t) "[TiltSeries]".data = false := by
  show pyStartsWith
    ('[' :: 'Z' :: 'V' :: 'a' :: 'l' :: 'u' :: 'e' :: ' ' :: '=' :: t)
    "[TiltSeries]".data = false
  simp [pyStartsWith]

lemma parserStep_marker (floatOk : Line → Bool)
    (matchFn : Line → Option Line) (st : ParserState) (raw : Line)
    (hm : pyStartsWith (pyStrip raw) "[ZValue =".data = true) :
    parserStep floatOk matchFn st raw =
      .ok { frames := st.frames ++ st.current.toList
            current := some ⟨(parseMarkerZ (pyStrip raw)).getD st.z_index,
              "0.0".data, [], true⟩
            z_index := (parseMarkerZ (pyStrip raw)).getD st.z_index + 1
            image_file := st.image_file } := by
  have h1 : pyStrip raw ≠ [] := by
    intro e
    rw [e] at hm
    exact absurd hm (by decide)
  obtain ⟨t, ht⟩ := (pyStartsWith_iff (pyStrip raw) "[ZValue =".data).mp hm
  have h2 : pyStartsWith (pyStrip raw) "[TiltSeries]".data = false := by
    rw [ht]
    exact zvalue_not_tiltseries t
  unfold parserStep
  rw [if_neg (by simp [h1]), if_neg (by simp [h2]), if_pos (by simp [hm])]
  cases hcur : st.current <;>
    cases hz : parseMarkerZ (pyStrip raw) <;>
      simp [hcur, hz, Option.toList]

lemma parserStep_preserves (floatOk : Line → Bool)
    (matchFn : Line → Option Line) (st st2 : ParserState) (raw : Line)
    (hok : parserStep floatOk matchFn st raw = .ok st2)
    (hnm : pyStartsWith (pyStrip raw) "[ZValue =".data = false) :
    stIds st2 = stIds st ∧ st2.z_index = st.z_index := by
  unfold parserStep at hok
  by_cases h1 : pyStrip raw = []
  · rw [if_pos h1] at hok
    cases hok
    exact ⟨rfl, rfl⟩
  rw [if_neg h1] at hok
  by_cases h2 : pyStartsWith (pyStrip raw) "[TiltSeries]".data = true
  · rw [if_pos (by simp [h2])] at hok
    cases hok
    exact ⟨rfl, rfl⟩
  rw [if_neg (by simp at h2; simp [h2]), if_neg (by simp [hnm])] at hok
  cases hsp : (pySplitOnce '=' (pyStrip raw)).2 with
  | none =>
    rw [hsp] at hok
    cases hok
    exact ⟨rfl, rfl⟩
  | some vraw =>
    rw [hsp] at hok
    cases hcur : st.current with
    | none =>
      rw [hcur] at hok
      dsimp only [] at hok
      split_ifs at hok <;>
        (cases hok; exact ⟨by simp [stIds, hcur], rfl⟩)
    | some f =>
      rw [hcur] at hok
      dsimp only [] at hok
      split_ifs at hok <;>
        first
        | exact Except.noConfusion hok
        | (cases hok; exact ⟨by simp [stIds, hcur], rfl⟩)

lemma parserMarkers_nil : parserMarkers [] = [] := rfl

lemma parserMarkers_cons (l : Line) (ls : List Line) :
    parserMarkers (l :: ls) =
      if pyStartsWith (pyStrip l) "[ZValue =".data
      then parseMarkerZ (pyStrip l) :: parserMarkers ls
      else parserMarkers ls := by
  simp only [parserMarkers, List.map_cons, List.filterMap_cons]
  split_ifs with h <;> simp

/-- The parser's identifier assignment agrees with the claimed
parsed-or-incrementing-counter rule, relative to the counter in the current
state. -/
lemma parserLoop_ids (floatOk : Line → Bool) (matchFn : Line → Option Line) :
    ∀ (lines : List Line) (st st2 : ParserState),
    parserLoop floatOk matchFn lines st = .ok st2 →
    stIds st2 = stIds st ++ claimedIds (parserMarkers lines) st.z_index := by
  intro lines
  induction lines with
  | nil =>
    intro st st2 h
    cases h
    simp [parserMarkers_nil, claimedIds]
  | cons l ls ih =>
    intro st st2 h
    rw [parserMarkers_cons]
    cases hm : pyStartsWith (pyStrip l) "[ZValue =".data with
    | false =>
      rw [if_neg (by simp [hm])]
      unfold parserLoop at h
      cases hstep : parserStep floatOk matchFn st l with
      | error e =>
        rw [hstep] at h
        exact Except.noConfusion h
      | ok stMid =>
        rw [hstep] at h
        obtain ⟨hids, hz⟩ :=
          parserStep_preserves floatOk matchFn st stMid l hstep hm
        rw [ih stMid st2 h, hids, hz]
    | true =>
      rw [if_pos (by simp [hm])]
      unfold parserLoop at h
      rw [parserStep_marker floatOk matchFn st l hm] at h
      cases hz : parseMarkerZ (pyStrip l) with
      | none =>
        rw [hz] at h
        simp only [Option.getD_none] at h
        rw [ih _ st2 h]
        have hmid : stIds (ParserState.mk (st.frames ++ st.current.toList)
            (some ⟨st.z_index, "0.0".data, [], true⟩) (st.z_index + 1)
            st.image_file) = stIds st ++ [st.z_index] := by
          simp [stIds]
        rw [hmid]
        simp [claimedIds]
      | some z =>
        rw [hz] at h
        simp only [Option.getD_some] at h
        rw [ih _ st2 h]
        have hmid : stIds (ParserState.mk (st.frames ++ st.current.toList)
            (some ⟨z, "0.0".data, [], true⟩) (z + 1)
            st.image_file) = stIds st ++ [z] := by
          simp [stIds]
        rw [hmid]
        simp [claimedIds]

/-- C8: when parsing succeeds, every marker line whose integer parses opens a
frame with that identifier, and every marker whose integer fails to parse
gets its identifier from the incrementing counter seeded from the last
successfully parsed identifier plus one (starting at 0 before any parse),
incrementing across consecutive unparsable markers. -/
theorem claim8_parser_fallback_ids (floatOk : Line → Bool)
    (matchFn : Line → Option Line) (lines : List Line) (ts : PTiltSeries)
    (h : parse_mdoc floatOk matchFn lines = .ok ts) :
    ts.frames.map (fun f => f.zIndex) = claimedIds (parserMarkers lines) 0 := by
  unfold parse_mdoc at h
  cases hloop : parserLoop floatOk matchFn lines ⟨[], none, 0, none⟩ with
  | error e =>
    rw [hloop] at h
    exact Except.noConfusion h
  | ok st =>
    rw [hloop] at h
    dsimp only [] at h
    have hids := parserLoop_ids floatOk matchFn lines ⟨[], none, 0, none⟩ st hloop
    split_ifs at h with hfr
    cases h
    cases hcur : st.current with
    | none => simpa [stIds, hcur] using hids
    | some f => simpa [stIds, hcur] using hids

/-- Witness for C8: markers `5`, unparsable, `2` yield identifiers
`[5, 6, 2]` — the unparsable marker falls back to the counter seeded from
`5 + 1`. -/
theorem claim8_parser_fallback_ids_witness :
    parse_mdoc (fun _ => true) (fun _ => none)
      ["[ZValue = 5]".data, "[ZValue = xx]".data, "[ZValue = 2]".data] =
      .ok (PTiltSeries.mk
        [⟨5, "0.0".data, [], true⟩, ⟨6, "0.0".data, [], true⟩,
          ⟨2, "0.0".data, [], true⟩] none) ∧
    (PTiltSeries.mk
        [⟨5, "0.0".data, [], true⟩, ⟨6, "0.0".data, [], true⟩,
          ⟨2, "0.0".data, [], true⟩] none).frames.map (fun f => f.zIndex) =
      claimedIds (parserMarkers
        ["[ZValue = 5]".data, "[ZValue = xx]".data, "[ZValue = 2]".data]) 0 :=
  ⟨rfl,
    claim8_parser_fallback_ids (fun _ => true) (fun _ => none)
      ["[ZValue = 5]".data, "[ZValue = xx]".data, "[ZValue = 2]".data]
      (PTiltSeries.mk
        [⟨5, "0.0".data, [], true⟩, ⟨6, "0.0".data, [], true⟩,
          ⟨2, "0.0".data, [], true⟩] none) rfl⟩

/-! ## Project state (`backend/app/state/project_state.py`) and frame edit
endpoints (`backend/app/api/frame.py`)

Python dicts are embedded as insertion-ordered association lists;
`d[k] = v` replaces in place or appends. `ScanConfig` and the
series-removal/scan operations are not needed by the claims. -/

/-- `TiltSeries` as the frame endpoints use it (`angleRange` is not
modelled; no claim touches it). -/
structure STiltSeries where
  id : String
  mdocPath : String
  frames : List PFrame
  deriving Repr, DecidableEq

/-- Dict lookup. -/
def alookup {β : Type} (k : String) : List (String × β) → Option β
  | [] => none
  | (k2, v) :: rest => if k2 = k then some v else alookup k rest

/-- Dict assignment `d[k] = v`. -/
def aset {β : Type} (k : String) (v : β) :
    List (String × β) → List (String × β)
  | [] => [(k, v)]
  | (k2, w) :: rest =>
    if k2 = k then (k, v) :: rest else (k2, w) :: aset k v rest

/-- In-memory project state: `tilt_series` (id → series) and
`frame_overrides` (mdocPath → zIndex → selected). -/
structure ProjectState where
  tilt_series : List (String × STiltSeries)
  frame_overrides : List (String × List (Int × Bool))
  deriving Repr, DecidableEq

/-- `get_tilt_series`. -/
def ProjectState.get_tilt_series (ps : ProjectState) (ts_id : String) :
    Option STiltSeries :=
  alookup ts_id ps.tilt_series

/-- `set_frame_override`: `self.frame_overrides[mdoc_path] = overrides` —
the whole per-file map is replaced. -/
def ProjectState.set_frame_override (ps : ProjectState) (mdoc_path : String)
    (overrides : List (Int × Bool)) : ProjectState :=
  { ps with frame_overrides := aset mdoc_path overrides ps.frame_overrides }

/-- `get_frame_override`: the staged value if present, else `original`. -/
def ProjectState.get_frame_override (ps : ProjectState) (mdoc_path : String)
    (z_index : Int) (original : Bool) : Bool :=
  match alookup mdoc_path ps.frame_overrides with
  | none => original
  | some ov =>
    match ov.lookup z_index with
    | some b => b
    | none => original

/-- `get_all_overrides`. -/
def ProjectState.get_all_overrides (ps : ProjectState) (mdoc_path : String) :
    List (Int × Bool) :=
  (alookup mdoc_path ps.frame_overrides).getD []

/-- `select_frame` endpoint: resolve series and frame (404 otherwise), stage
`{frame_id: selected}` as the series' whole override map, and report the
effective selection read back from the updated state. -/
def select_frame (ps : ProjectState) (ts_id : String) (frame_id : Int)
    (selected : Bool) : Except HttpError (ProjectState × Bool) :=
  match alookup ts_id ps.tilt_series with
  | none => .error ⟨404⟩
  | some ts =>
    match ts.frames.find? (fun f => f.zIndex == frame_id) with
    | none => .error ⟨404⟩
    | some frame =>
      let ps2 := ps.set_frame_override ts.mdocPath [(frame_id, selected)]
      .ok (ps2, ps2.get_frame_override ts.mdocPath frame_id frame.selected)

/-- `toggle_frame_selection` endpoint: read the effective state, stage
`{frame_id: not current}` as the series' whole override map, and report
(previous, new). -/
def toggle_frame_selection (ps : ProjectState) (ts_id : String)
    (frame_id : Int) : Except HttpError (ProjectState × Bool × Bool) :=
  match alookup ts_id ps.tilt_series with
  | none => .error ⟨404⟩
  | some ts =>
    match ts.frames.find? (fun f => f.zIndex == frame_id) with
    | none => .error ⟨404⟩
    | some frame =>
      let current := ps.get_frame_override ts.mdocPath frame_id frame.selected
      let new_state := ! current
      .ok (ps.set_frame_override ts.mdocPath [(frame_id, new_state)],
        current, new_state)

lemma alookup_aset_self {β : Type} (k : String) (v : β) :
    ∀ d : List (String × β), alookup k (aset k v d) = some v := by
  intro d
  induction d with
  | nil => simp [aset, alookup]
  | cons e rest ih =>
    obtain ⟨k2, w⟩ := e
    by_cases hk : k2 = k
    · simp [aset, alookup, hk]
    · simp only [aset, alookup, if_neg hk]
      exact ih

lemma get_frame_override_after_set (ps : ProjectState) (path : String)
    (f : Int) (v : Bool) (g : Int) (orig : Bool) (hne : g ≠ f) :
    (ps.set_frame_override path [(f, v)]).get_frame_override path g orig =
      orig := by
  unfold ProjectState.get_frame_override ProjectState.set_frame_override
  simp only [alookup_aset_self]
  have hbeq : (g == f) = false := beq_eq_false_iff_ne.mpr hne
  have hlk : List.lookup g [(f, v)] = none := by
    simp [List.lookup, hbeq]
  rw [hlk]

lemma get_all_overrides_after_set (ps : ProjectState) (path : String)
    (ov : List (Int × Bool)) :
    (ps.set_frame_override path ov).get_all_overrides path = ov := by
  unfold ProjectState.get_all_overrides ProjectState.set_frame_override
  simp [alookup_aset_self]

/-- C10: a single-frame edit replaces the series' whole staged overlay.
After `select_frame` on frame `f` with value `v` (resp. a toggle producing
`new = not current`), the override map for the series' metadata path is
exactly `{f: v}` (resp. `{f: new}`): any previously staged override for any
other frame is discarded, and every other frame's effective selection
reverts to its base `Frame.selected`. -/
theorem claim10_single_edit_replaces_overlay (ps : ProjectState)
    (ts_id : String) (f : Int) (v : Bool) :
    (∀ ps2 eff ts, select_frame ps ts_id f v = .ok (ps2, eff) →
      alookup ts_id ps.tilt_series = some ts →
      ps2.get_all_overrides ts.mdocPath = [(f, v)] ∧
      ∀ g orig, g ≠ f →
        ps2.get_frame_override ts.mdocPath g orig = orig) ∧
    (∀ ps2 prev new ts,
      toggle_frame_selection ps ts_id f = .ok (ps2, prev, new) →
      alookup ts_id ps.tilt_series = some ts →
      new = ! prev ∧
      ps2.get_all_overrides ts.mdocPath = [(f, new)] ∧
      ∀ g orig, g ≠ f →
        ps2.get_frame_override ts.mdocPath g orig = orig) := by
  constructor
  · intro ps2 eff ts hok hts
    unfold select_frame at hok
    rw [hts] at hok
    dsimp only [] at hok
    cases hfr : ts.frames.find? (fun fr => fr.zIndex == f) with
    | none =>
      rw [hfr] at hok
      exact Except.noConfusion hok
    | some frame =>
      rw [hfr] at hok
      dsimp only [] at hok
      cases hok
      exact ⟨get_all_overrides_after_set ps ts.mdocPath [(f, v)],
        fun g orig hne => get_frame_override_after_set ps ts.mdocPath f v
          g orig hne⟩
  · intro ps2 prev new ts hok hts
    unfold toggle_frame_selection at hok
    rw [hts] at hok
    dsimp only [] at hok
    cases hfr : ts.frames.find? (fun fr => fr.zIndex == f) with
    | none =>
      rw [hfr] at hok
      exact Except.noConfusion hok
    | some frame =>
      rw [hfr] at hok
      dsimp only [] at hok
      cases hok
      exact ⟨rfl,
        get_all_overrides_after_set ps ts.mdocPath [(f, _)],
        fun g orig hne => get_frame_override_after_set ps ts.mdocPath f _
          g orig hne⟩

/-- Witness for C10: selecting frame 11 on a series that already staged an
override for frame 10 leaves `{11: false}` as the whole overlay; frame 10
reverts to its base selection. -/
theorem claim10_single_edit_replaces_overlay_witness :
    select_frame (ProjectState.mk
        [("TS1", ⟨"TS1", "/p.mdoc",
          [⟨10, "0.0".data, [], true⟩, ⟨11, "0.0".data, [], true⟩]⟩)]
        [("/p.mdoc", [(10, false)])]) "TS1" 11 false =
      .ok (ProjectState.mk
        [("TS1", ⟨"TS1", "/p.mdoc",
          [⟨10, "0.0".data, [], true⟩, ⟨11, "0.0".data, [], true⟩]⟩)]
        [("/p.mdoc", [(11, false)])], false) ∧
    (ProjectState.mk
        [("TS1", ⟨"TS1", "/p.mdoc",
          [⟨10, "0.0".data, [], true⟩, ⟨11, "0.0".data, [], true⟩]⟩)]
        [("/p.mdoc", [(11, false)])]).get_all_overrides "/p.mdoc" =
      [(11, false)] ∧
    (ProjectState.mk
        [("TS1", ⟨"TS1", "/p.mdoc",
          [⟨10, "0.0".data, [], true⟩, ⟨11, "0.0".data, [], true⟩]⟩)]
        [("/p.mdoc", [(11, false)])]).get_frame_override "/p.mdoc" 10 true =
      true :=
  ⟨rfl,
    ((claim10_single_edit_replaces_overlay (ProjectState.mk
        [("TS1", ⟨"TS1", "/p.mdoc",
          [⟨10, "0.0".data, [], true⟩, ⟨11, "0.0".data, [], true⟩]⟩)]
        [("/p.mdoc", [(10, false)])]) "TS1" 11 false).1 _ false
      ⟨"TS1", "/p.mdoc",
        [⟨10, "0.0".data, [], true⟩, ⟨11, "0.0".data, [], true⟩]⟩
      rfl rfl).1,
    ((claim10_single_edit_replaces_overlay (ProjectState.mk
        [("TS1", ⟨"TS1", "/p.mdoc",
          [⟨10, "0.0".data, [], true⟩, ⟨11, "0.0".data, [], true⟩]⟩)]
        [("/p.mdoc", [(10, false)])]) "TS1" 11 false).1 _ false
      ⟨"TS1", "/p.mdoc",
        [⟨10, "0.0".data, [], true⟩, ⟨11, "0.0".data, [], true⟩]⟩
      rfl rfl).2 10 true (by decide)⟩

/-! ## Preview single-flight (`backend/app/api/preview.py`, `get_preview`)

One request's pass through the handler body is modelled after it has
registered its `asyncio.Future` in `_inflight_tasks` under `_inflight_lock`
(the key was not in flight). The model records the in-flight entry's
presence and the registered future's state at the moment the handler
finishes. `future.set_result` is called on the memory-hit, disk-hit and
cold-success paths (lines 59, 68, 118); the `finally` block (lines 121-125)
always deletes the table entry. No path calls `set_result` or
`set_exception` when the body raises, which is what C9 turns on. -/

/-- The state of the `asyncio.Future` the request registered. -/
inductive FutureState
  | pending
  | resolved (data : List Nat)
  deriving Repr, DecidableEq

/-- The in-flight table entry's presence and the registered future's state
once the handler finishes. -/
structure FlightState where
  inflight : Bool
  future : FutureState
  deriving Repr, DecidableEq

/-- How the body of `get_preview` after the in-flight registration plays
out: a memory-cache hit, a disk-cache hit, a cold-path success, or a
cold-path failure (`HTTPException` from a missing series, missing frame or
unreadable image). -/
inductive PreviewPath
  | memHit (data : List Nat)
  | diskHit (data : List Nat)
  | coldOk (data : List Nat)
  | coldFail (status : Nat)
  deriving Repr, DecidableEq

/-- The handler body from registration to completion: on the three success
paths the future is resolved with the response bytes and the `finally`
removes the entry; on a failure the `finally` removes the entry but the
future is never settled, and the error propagates. -/
def runPreviewRequest : PreviewPath →
    FlightState × Except HttpError (List Nat)
  | .memHit data => (⟨false, .resolved data⟩, .ok data)
  | .diskHit data => (⟨false, .resolved data⟩, .ok data)
  | .coldOk data => (⟨false, .resolved data⟩, .ok data)
  | .coldFail s => (⟨false, .pending⟩, .error ⟨s⟩)

/-- C9 (code bug): on every path the in-flight entry is removed when the
handler finishes, and on every success path the registered future is
resolved with the returned bytes — but on a failing cold path the entry is
removed while the future is still pending, so a second request that began
awaiting that future before the removal waits for a result that will never
be delivered, contrary to the claim. -/
theorem claim9_failure_never_settles_future :
    (∀ p : PreviewPath, (runPreviewRequest p).1.inflight = false) ∧
    (∀ d : List Nat,
      (runPreviewRequest (PreviewPath.memHit d)).1.future =
        FutureState.resolved d ∧
      (runPreviewRequest (PreviewPath.diskHit d)).1.future =
        FutureState.resolved d ∧
      (runPreviewRequest (PreviewPath.coldOk d)).1.future =
        FutureState.resolved d) ∧
    (∀ s : Nat,
      (runPreviewRequest (PreviewPath.coldFail s)).1.inflight = false ∧
      (runPreviewRequest (PreviewPath.coldFail s)).1.future =
        FutureState.pending ∧
      (runPreviewRequest (PreviewPath.coldFail s)).2 =
        Except.error ⟨s⟩) := by
  refine ⟨fun p => ?_, fun d => ⟨rfl, rfl, rfl⟩, fun s => ⟨rfl, rfl, rfl⟩⟩
  cases p <;> rfl

end TsGo
